import Mathlib

/-
  Verification of vcontrold-mqttd against its natural-language specification.

  Shallow embedding conventions:
  - Rust `&str` / `String` values are modelled as lists of characters (`RStr`);
    Rust byte lengths (`str::len`) are modelled by summing `Char.utf8Size`.
  - Raw TCP bytes are modelled as `List Nat` (each entry < 256 where relevant).
  - Rust `f64` values are modelled by `RustFloat`: finite values are exact
    rationals, infinities and NaN are explicit constructors.  Binary rounding
    of decimal literals (including overflow to infinity of huge exponents) is
    not modelled; the inf/infinity/nan literal forms accepted by Rust
    `str::parse::<f64>` are modelled exactly.
  - Fallible Rust functions return `Except` / `Option`.
-/

abbrev RStr := List Char

/-- Model of Rust `char::is_whitespace` (the Unicode White_Space set). -/
def rustIsWhitespace (c : Char) : Bool :=
  let n := c.toNat
  n == 0x20 || n == 0x09 || n == 0x0A || n == 0x0B || n == 0x0C || n == 0x0D ||
  n == 0x85 || n == 0xA0 || n == 0x1680 ||
  (0x2000 ≤ n && n ≤ 0x200A) || n == 0x2028 || n == 0x2029 ||
  n == 0x202F || n == 0x205F || n == 0x3000

/-- Model of Rust `str::trim`: strip leading and trailing whitespace. -/
def rustTrim (s : RStr) : RStr :=
  ((s.dropWhile rustIsWhitespace).reverse.dropWhile rustIsWhitespace).reverse

/-- Model of Rust `char::is_control` (Unicode category Cc). -/
def rustIsControl (c : Char) : Bool :=
  c.toNat < 0x20 || (0x7F ≤ c.toNat && c.toNat ≤ 0x9F)

/-- Model of Rust `str::len`: the UTF-8 byte length of a string. -/
def byteLen (s : RStr) : Nat :=
  (s.map Char.utf8Size).sum

/-- ASCII decimal digit test. -/
def isDigitC (c : Char) : Bool :=
  '0' ≤ c && c ≤ '9'

/-- Numeric value of an ASCII digit character. -/
def digitVal (c : Char) : Nat :=
  c.toNat - 48

/-- The character for a decimal digit. -/
def digitChar (d : Nat) : Char :=
  Char.ofNat (48 + d)

/-- Little-endian base-10 digits with explicit fuel (the value itself always
suffices as fuel); structural so that the kernel can evaluate it. -/
def natToDigitsGo : Nat → Nat → List Nat
  | _, 0 => []
  | 0, _ + 1 => []
  | fuel + 1, n + 1 => (n + 1) % 10 :: natToDigitsGo fuel ((n + 1) / 10)

/-- Little-endian base-10 digits of a natural number. -/
def natDigits (n : Nat) : List Nat :=
  natToDigitsGo n n

/-- Big-endian decimal rendering of a natural number. -/
def natToDecimal (n : Nat) : RStr :=
  if n = 0 then ['0'] else (natDigits n).reverse.map digitChar

/-- Decimal rendering of an integer (minus sign for negatives). -/
def intToDecimal (i : Int) : RStr :=
  if i < 0 then '-' :: natToDecimal i.natAbs else natToDecimal i.natAbs

/-- Value of a list of ASCII digit characters read in base 10. -/
def parseDigits (cs : RStr) : Nat :=
  cs.foldl (fun a c => 10 * a + digitVal c) 0

/-- Lower-case an ASCII letter (model of byte-wise ASCII lowering used for the
case-insensitive special float literals of Rust `str::parse::<f64>`). -/
def lowerAscii (c : Char) : Char :=
  if 'A' ≤ c && c ≤ 'Z' then Char.ofNat (c.toNat + 32) else c

/-- Model of a Rust `f64` value: exact rational for finite values, explicit
infinities (with sign) and NaN. -/
inductive RustFloat where
  | finite (q : ℚ)
  | inf (neg : Bool)
  | nan
deriving DecidableEq, Repr

/-- Whether a modelled `f64` value is finite. -/
def RustFloat.isFinite : RustFloat → Bool
  | .finite _ => true
  | _ => false

/-- Strip one optional sign, returning (isNegative, rest). -/
def stripSign : RStr → Bool × RStr
  | [] => (false, [])
  | c :: r =>
    if c = '-' then (true, r)
    else if c = '+' then (false, r)
    else (false, c :: r)

/-- Parse an optional exponent suffix (`e`/`E`, optional sign, digits).
Returns `some 0` on empty input, `none` when the tail is malformed. -/
def parseExpOpt : RStr → Option Int
  | [] => some 0
  | c :: r =>
    if c = 'e' || c = 'E' then
      let (eneg, r2) := stripSign r
      let ds := r2.takeWhile isDigitC
      if ds = [] || r2.drop ds.length ≠ [] then none
      else some (if eneg then -(parseDigits ds : Int) else (parseDigits ds : Int))
    else none

/-- Combine sign, integer digits, fraction digits and exponent into a rational. -/
def mkDecimalQ (neg : Bool) (ip fp : RStr) (e : Int) : ℚ :=
  let m : ℚ := (parseDigits (ip ++ fp) : ℚ)
  let q : ℚ := m / (10 : ℚ) ^ fp.length * (10 : ℚ) ^ e
  if neg then -q else q

/-- Parse the number form of the Rust `f64` grammar (after the sign):
`Digits ('.' Digits?)? Exp?` or `'.' Digits Exp?`. -/
def parseNumberPart (neg : Bool) (cs : RStr) : Option RustFloat :=
  let ip := cs.takeWhile isDigitC
  let rest1 := cs.drop ip.length
  match rest1 with
  | '.' :: r2 =>
    let fp := r2.takeWhile isDigitC
    let rest2 := r2.drop fp.length
    if ip = [] && fp = [] then none
    else (parseExpOpt rest2).map (fun e => .finite (mkDecimalQ neg ip fp e))
  | rest =>
    if ip = [] then none
    else (parseExpOpt rest).map (fun e => .finite (mkDecimalQ neg ip [] e))

/-- Model of Rust `str::parse::<f64>`: optional sign, then either one of the
case-insensitive literals `inf` / `infinity` / `nan`, or a decimal number with
optional fraction and exponent.  Finite values are modelled by their exact
rational value. -/
def parseF64 (s : RStr) : Option RustFloat :=
  let (neg, rest) := stripSign s
  let low := rest.map lowerAscii
  if low = "inf".data || low = "infinity".data then some (.inf neg)
  else if low = "nan".data then some .nan
  else parseNumberPart neg rest

/- ===== src/vcontrold/protocol.rs ===== -/

/-- `PROMPT`: the prompt string sent by vcontrold when ready. -/
def PROMPT : RStr := "vctrld>".data

/-- `ERR_PREFIX`: marker beginning error responses (the constant named
`ERR_PREFIX` in the source). -/
def errMark : RStr := "ERR:".data

/-- `Value`: a value returned by vcontrold. -/
inductive Value where
  | number (n : RustFloat)
  | string (s : RStr)
  | none
deriving DecidableEq, Repr

/-- `CommandResult`: result of executing a command. -/
structure CommandResult where
  command : RStr
  value : Value
  raw : RStr
  error : Option RStr
deriving DecidableEq, Repr

/-- First whitespace-delimited token of a string
(`str::split_whitespace().next()`). -/
def firstToken (s : RStr) : Option RStr :=
  let d := s.dropWhile rustIsWhitespace
  if d = [] then Option.none else some (d.takeWhile (fun c => !rustIsWhitespace c))

/-- `parse_response`: parse a raw response line from vcontrold. -/
def parse_response (command raw0 : RStr) : CommandResult :=
  let raw := rustTrim raw0
  if errMark.isPrefixOf raw then
    { command := command, value := .none, raw := raw, error := some raw }
  else
    let first_word := (firstToken raw).getD raw
    let value : Value :=
      match parseF64 first_word with
      | some num => .number num
      | Option.none => if raw ≠ [] then .string raw else .none
    { command := command, value := value, raw := raw, error := Option.none }

/-- `format_command`: trim the command and append a single line feed. -/
def format_command (cmd : RStr) : RStr :=
  rustTrim cmd ++ ['\n']

/-- Errors of the vcontrold client (`VcontroldError`). -/
inductive VcontroldError where
  | connectionFailed (msg : RStr)
  | connectionLost
  | protocol (msg : RStr)
  | command (msg : RStr)
  | timeout
  | io (e : RStr)
deriving DecidableEq, Repr

/-- `validate_command`: reject empty commands and commands containing control
characters (other than space, which is not a control character anyway). -/
def validate_command (cmd : RStr) : Except VcontroldError Unit :=
  let cmd := rustTrim cmd
  if cmd = [] then .error (.command "empty command".data)
  else if cmd.any (fun c => rustIsControl c && c ≠ ' ') then
    .error (.command "command contains invalid characters".data)
  else .ok ()

/-- Index of the first occurrence of `needle` in `hay`
(model of Rust `str::find` with a string pattern). -/
def findSub (hay needle : RStr) : Option Nat :=
  if needle.isPrefixOf hay then some 0
  else
    match hay with
    | [] => Option.none
    | _ :: t => (findSub t needle).map (· + 1)

/-- `extract_response`: everything before the first prompt occurrence, trimmed;
`none` when no prompt is present. -/
def extract_response (buffer : RStr) : Option RStr :=
  (findSub buffer PROMPT).map (fun idx => rustTrim (buffer.take idx))

/-- JSON values in the range of `Value::to_json_value`. -/
inductive JValue where
  | num (q : ℚ)
  | str (s : RStr)
  | null
deriving DecidableEq, Repr

/-- `Value::to_json_value`: numbers map to JSON numbers (`serde_json::json!`
turns non-finite floats into `null`), strings to JSON strings, none to `null`. -/
def Value.to_json_value : Value → JValue
  | .number (.finite q) => .num q
  | .number _ => .null
  | .string s => .str s
  | .none => .null

/-- Modelled from the spec: the repository's `Cargo.toml` (not under `src/`)
decides whether `serde_json::Map` preserves insertion order; the spec states
"Key order is insertion order of the input", so the map is modelled as an
insertion-ordered association list whose `insert` replaces the value of an
existing key in place and appends new keys at the end. -/
def mapInsert (m : List (RStr × JValue)) (k : RStr) (v : JValue) :
    List (RStr × JValue) :=
  if m.any (fun p => p.1 = k) then
    m.map (fun p => if p.1 = k then (k, v) else p)
  else m ++ [(k, v)]

/-- The loop body of `build_json_response`: insert the result's command and
JSON value when its error field is absent, otherwise leave the map unchanged. -/
def buildStep (m : List (RStr × JValue)) (r : CommandResult) :
    List (RStr × JValue) :=
  if r.error = Option.none then mapInsert m r.command r.value.to_json_value
  else m

/-- `build_json_response`, modelled up to serialization: the JSON object (as an
ordered key/value list) built by inserting each error-free result. -/
def build_json_map (results : List CommandResult) : List (RStr × JValue) :=
  results.foldl buildStep []

/- ===== src/polling.rs ===== -/

/-- State of the imperative loop inside `batch_commands`. -/
structure BatchState where
  batches : List (List RStr)
  current_batch : List RStr
  current_length : Nat
deriving Repr

/-- One iteration of the `batch_commands` loop body for command `cmd`. -/
def batch_step (max_length : Nat) (st : BatchState) (cmd : RStr) : BatchState :=
  let cmd_len := byteLen cmd
  let separator_len := if st.current_batch = [] then 0 else 1
  let st :=
    if st.current_length + separator_len + cmd_len > max_length ∧
        st.current_batch ≠ [] then
      { batches := st.batches ++ [st.current_batch]
        current_batch := []
        current_length := 0 }
    else st
  { batches := st.batches
    current_batch := st.current_batch ++ [cmd]
    current_length :=
      st.current_length +
        (if st.current_length = 0 then cmd_len else 1 + cmd_len) }

/-- `batch_commands`: batch commands respecting the max length limit. -/
def batch_commands (commands : List RStr) (max_length : Nat) :
    List (List RStr) :=
  let st := commands.foldl (batch_step max_length) ⟨[], [], 0⟩
  if st.current_batch ≠ [] then st.batches ++ [st.current_batch] else st.batches

/-- UTF-8 byte length of a batch joined with single-comma separators
(`join(batch, ",").len()`). -/
def joinLen (batch : List RStr) : Nat :=
  byteLen (List.intercalate [','] batch)

/- ===== src/mqtt/publisher.rs ===== -/

/-- Round a rational to the nearest integer, ties to even (the rounding used
by Rust fixed-precision float formatting). -/
def roundHalfEven (x : ℚ) : ℤ :=
  let f := ⌊x⌋
  let r := x - (f : ℚ)
  if r < 1 / 2 then f
  else if 1 / 2 < r then f + 1
  else if Even f then f else f + 1

/-- Left-pad the decimal rendering of a fraction value to six digits. -/
def padSix (f : Nat) : RStr :=
  let ds := natToDecimal f
  List.replicate (6 - ds.length) '0' ++ ds

/-- Model of Rust `format!("{:.6}", q)`: sign of the value, integer digits,
a dot, and exactly six fraction digits of the value rounded to six decimals. -/
def fixedSix (q : ℚ) : RStr :=
  let n : ℤ := roundHalfEven (q * 10 ^ 6)
  let m : Nat := n.natAbs
  (if q < 0 then ['-'] else []) ++
    natToDecimal (m / 10 ^ 6) ++ '.' :: padSix (m % 10 ^ 6)

/-- Model of Rust `str::trim_end_matches` with a single-character pattern. -/
def trimTrailing (c : Char) (s : RStr) : RStr :=
  (s.reverse.dropWhile (fun x => x = c)).reverse

/-- Rust truncation toward zero (`f64::trunc`), on the rational model. -/
def qtrunc (q : ℚ) : ℤ :=
  if 0 ≤ q then ⌊q⌋ else -⌊-q⌋

/-- `format_number`: integers without decimal places when the value has zero
fractional part and magnitude below `i64::MAX as f64` (which is 2^63), else
`{:.6}` with trailing zeros and a trailing dot trimmed. -/
def format_number (q : ℚ) : RStr :=
  if q.den = 1 ∧ |q| < 2 ^ 63 then intToDecimal q.num
  else trimTrailing '.' (trimTrailing '0' (fixedSix q))

/- ===== src/vcontrold/client.rs ===== -/

/-- Loop of `read_until_prompt`: accumulate bytes from the input stream until
the accumulated vector ends with the prompt bytes; on success the buffer is the
lossy UTF-8 decoding of the accumulated bytes (defined below) and the unread
remainder of the stream is returned.  An exhausted stream models `read`
returning 0 bytes (`ConnectionLost`). -/
def promptBytes : List Nat := PROMPT.map Char.toNat

/-- Continuation byte test for UTF-8 (0x80..0xBF). -/
def isCont (b : Nat) : Bool :=
  0x80 ≤ b && b < 0xC0

/-- Valid first continuation byte after a given lead byte (the restricted
ranges after 0xE0, 0xED, 0xF0 and 0xF4 exclude overlong forms, surrogates and
code points above U+10FFFF). -/
def validCont1 (lead b : Nat) : Bool :=
  if lead = 0xE0 then 0xA0 ≤ b && b < 0xC0
  else if lead = 0xED then 0x80 ≤ b && b < 0xA0
  else if lead = 0xF0 then 0x90 ≤ b && b < 0xC0
  else if lead = 0xF4 then 0x80 ≤ b && b < 0x90
  else isCont b

/-- The replacement character U+FFFD. -/
def repl : Char := Char.ofNat 0xFFFD

/-- Decode one code point (or one maximal invalid subpart) from a lead byte
and the following bytes; returns the produced character and how many extra
bytes beyond the lead were consumed. -/
def decodeOne (b : Nat) (rest : List Nat) : Char × Nat :=
  if b < 0x80 then (Char.ofNat b, 0)
  else if 0xC2 ≤ b && b < 0xE0 then
    match rest with
    | c1 :: _ =>
      if isCont c1 then (Char.ofNat ((b - 0xC0) * 0x40 + (c1 - 0x80)), 1)
      else (repl, 0)
    | [] => (repl, 0)
  else if 0xE0 ≤ b && b < 0xF0 then
    match rest with
    | c1 :: c2 :: _ =>
      if validCont1 b c1 then
        if isCont c2 then
          (Char.ofNat ((b - 0xE0) * 0x1000 + (c1 - 0x80) * 0x40 + (c2 - 0x80)), 2)
        else (repl, 1)
      else (repl, 0)
    | [c1] => if validCont1 b c1 then (repl, 1) else (repl, 0)
    | [] => (repl, 0)
  else if 0xF0 ≤ b && b < 0xF5 then
    match rest with
    | c1 :: c2 :: c3 :: _ =>
      if validCont1 b c1 then
        if isCont c2 then
          if isCont c3 then
            (Char.ofNat ((b - 0xF0) * 0x40000 + (c1 - 0x80) * 0x1000 +
              (c2 - 0x80) * 0x40 + (c3 - 0x80)), 3)
          else (repl, 2)
        else (repl, 1)
      else (repl, 0)
    | [c1, c2] =>
      if validCont1 b c1 then
        if isCont c2 then (repl, 2) else (repl, 1)
      else (repl, 0)
    | [c1] => if validCont1 b c1 then (repl, 1) else (repl, 0)
    | [] => (repl, 0)
  else (repl, 0)

/-- Recursion core of the lossy UTF-8 decoder; the fuel bounds the number of
decoded code points (the input length always suffices). -/
def utf8LossyGo : Nat → List Nat → List Char
  | _, [] => []
  | 0, _ :: _ => []
  | fuel + 1, b :: rest =>
    (decodeOne b rest).1 :: utf8LossyGo fuel (rest.drop (decodeOne b rest).2)

/-- Model of Rust `String::from_utf8_lossy`: decode UTF-8, replacing each
maximal invalid subpart by U+FFFD. -/
def utf8Lossy (l : List Nat) : List Char :=
  utf8LossyGo l.length l

/-- `read_until_prompt`: read bytes one at a time, returning once the
accumulated raw bytes end with the prompt bytes; the output buffer is the
lossy UTF-8 decoding of the accumulated bytes.  Returns the decoded buffer and
the unconsumed remainder of the stream. -/
def read_until_prompt_go (raw : List Nat) :
    List Nat → Except VcontroldError (RStr × List Nat)
  | [] => .error .connectionLost
  | b :: rest =>
    let raw' := raw ++ [b]
    if promptBytes.isSuffixOf raw' then .ok (utf8Lossy raw', rest)
    else read_until_prompt_go raw' rest

/-- `read_until_prompt` from the start of a stream. -/
def read_until_prompt (input : List Nat) :
    Except VcontroldError (RStr × List Nat) :=
  read_until_prompt_go [] input

/-- Outcome of the timeout-wrapped read-until-prompt phase inside
`VcontroldClient::execute`: the inner read completed, the inner read failed
with an error, or the 30 s timeout fired. -/
inductive ReadPhaseOutcome where
  | completed
  | failed (e : VcontroldError)
  | timedOut
deriving DecidableEq, Repr

/-- A stored connection, modelled by the bytes still readable from it. -/
structure Connection where
  pending : List Nat
deriving DecidableEq, Repr

/-- The `match read_result` step of `VcontroldClient::execute` (lines
122-142): on success the stored connection is kept; on `ConnectionLost`, any
other inner error, or timeout, the stored connection slot is overwritten with
`None` before the error is returned. -/
def execute_read_phase (conn : Option Connection) (outcome : ReadPhaseOutcome) :
    Option Connection × Option VcontroldError :=
  match outcome with
  | .completed => (conn, Option.none)
  | .failed .connectionLost => (Option.none, some .connectionLost)
  | .failed e => (Option.none, some e)
  | .timedOut => (Option.none, some .timeout)

/- ===== src/mqtt/client.rs (run_event_loop) ===== -/

/-- Incoming MQTT packets distinguished by `run_event_loop`. -/
inductive MqttIncoming where
  | publish (topic payload : RStr)
  | connAck
  | subAck
  | pubAck
  | disconnect
  | other
deriving DecidableEq, Repr

/-- One result of `eventloop.poll()`: an incoming packet, an outgoing event
(ignored by the `if let Event::Incoming` filter), or a poll error. -/
inductive MqttPollResult where
  | okIncoming (i : MqttIncoming)
  | okOutgoing
  | err
deriving DecidableEq, Repr

/-- Externally visible effects of one event-loop iteration. -/
inductive LoopEffect where
  | forwardMessage (topic payload : RStr)
  | subscribe (topic : RStr)
  | sleepSeconds (n : Nat)
deriving DecidableEq, Repr

/-- One iteration of `run_event_loop`, as a transition on the shared
connectivity flag (`mqtt_connected`).  The source function neither receives
nor writes that flag, so the flag component of the state passes through every
branch unchanged; the returned Bool is true when the loop continues (it always
does: no branch breaks or returns). -/
def run_event_step (subscribe_topics : List RStr) (has_sink : Bool)
    (ev : MqttPollResult) (mqtt_connected : Bool) :
    Bool × List LoopEffect × Bool :=
  match ev with
  | .okIncoming (.publish topic payload) =>
    (mqtt_connected,
      if has_sink then [.forwardMessage topic payload] else [], true)
  | .okIncoming .connAck =>
    (mqtt_connected, subscribe_topics.map LoopEffect.subscribe, true)
  | .okIncoming .subAck => (mqtt_connected, [], true)
  | .okIncoming .pubAck => (mqtt_connected, [], true)
  | .okIncoming .disconnect => (mqtt_connected, [], true)
  | .okIncoming .other => (mqtt_connected, [], true)
  | .okOutgoing => (mqtt_connected, [], true)
  | .err => (mqtt_connected, [.sleepSeconds 10], true)

/- ===== src/mqtt/subscriber.rs ===== -/

/-- The response-building tail of one `run_subscriber` iteration: filter the
batch results to those whose `execute` succeeded (`filter_map(|r| r.ok())`),
drop the request when none remain, otherwise publish the JSON object built by
`build_json_response` from the surviving results. -/
def process_request (results : List (Except VcontroldError CommandResult)) :
    Option (List (RStr × JValue)) :=
  let successful := results.filterMap (fun r => r.toOption)
  if successful = [] then Option.none
  else some (build_json_map successful)

/- ===== Helper lemmas ===== -/

theorem mapInsert_mem {m : List (RStr × JValue)} {k : RStr} {v : JValue} :
    ∀ p ∈ mapInsert m k v, p ∈ m ∨ p.1 = k := by
  intro p hp
  unfold mapInsert at hp
  split at hp
  · rcases List.mem_map.mp hp with ⟨q, hq, hpq⟩
    by_cases h : q.1 = k
    · right; rw [← hpq]; simp [h]
    · left; rw [← hpq]; simpa [h] using hq
  · rcases List.mem_append.mp hp with h | h
    · exact Or.inl h
    · right; simp at h; rw [h]

theorem mapInsert_of_fresh {m : List (RStr × JValue)} {k : RStr} (v : JValue)
    (h : k ∉ m.map Prod.fst) : mapInsert m k v = m ++ [(k, v)] := by
  unfold mapInsert
  have hany : m.any (fun p => p.1 = k) = false := by
    simp only [List.any_eq_false, decide_eq_true_eq]
    intro p hp hpk
    exact h (List.mem_map.mpr ⟨p, hp, hpk⟩)
  simp [hany]

theorem foldl_buildStep_mem :
    ∀ (l : List CommandResult) (acc : List (RStr × JValue)) (p : RStr × JValue),
      p ∈ List.foldl buildStep acc l →
      p ∈ acc ∨ ∃ r ∈ l, r.error = Option.none ∧ r.command = p.1 := by
  intro l
  induction l with
  | nil => intro acc p hp; exact Or.inl hp
  | cons r t ih =>
    intro acc p hp
    rcases ih (buildStep acc r) p hp with h | ⟨r', hr', he, hc⟩
    · unfold buildStep at h
      split at h
      · rcases mapInsert_mem p h with h' | h'
        · exact Or.inl h'
        · right
          refine ⟨r, List.mem_cons_self _ _, ?_, h'.symm⟩
          assumption
      · exact Or.inl h
    · exact Or.inr ⟨r', List.mem_cons_of_mem _ hr', he, hc⟩

theorem foldl_buildStep_filter :
    ∀ (l : List CommandResult) (acc : List (RStr × JValue)),
      List.foldl buildStep acc l =
        List.foldl buildStep acc (l.filter (fun r => r.error = Option.none)) := by
  intro l
  induction l with
  | nil => intro acc; rfl
  | cons r t ih =>
    intro acc
    by_cases h : r.error = Option.none
    · simp only [List.foldl_cons, List.filter_cons, h]
      simp only [decide_True, if_true, List.foldl_cons, ih]
    · have hstep : buildStep acc r = acc := by
        unfold buildStep
        simp [h]
      simp only [List.foldl_cons, List.filter_cons, h]
      simp [hstep, ih]

theorem foldl_buildStep_append :
    ∀ (l : List CommandResult) (acc : List (RStr × JValue)),
      (∀ r ∈ l, r.error = Option.none) →
      (∀ r ∈ l, r.command ∉ acc.map Prod.fst) →
      (l.map CommandResult.command).Nodup →
      List.foldl buildStep acc l =
        acc ++ l.map (fun r => (r.command, r.value.to_json_value)) := by
  intro l
  induction l with
  | nil => intro acc _ _ _; simp
  | cons r t ih =>
    intro acc herr hfresh hnodup
    have hr : r.error = Option.none := herr r (List.mem_cons_self _ _)
    have hfr : r.command ∉ acc.map Prod.fst := hfresh r (List.mem_cons_self _ _)
    have hstep : buildStep acc r = acc ++ [(r.command, r.value.to_json_value)] := by
      unfold buildStep
      rw [if_pos hr, mapInsert_of_fresh _ hfr]
    simp only [List.map_cons, List.nodup_cons] at hnodup
    have ht := ih (acc ++ [(r.command, r.value.to_json_value)])
      (fun r' hr' => herr r' (List.mem_cons_of_mem _ hr'))
      (fun r' hr' => by
        simp only [List.map_append, List.map_cons, List.map_nil, List.mem_append,
          List.mem_singleton]
        rintro (h | h)
        · exact hfresh r' (List.mem_cons_of_mem _ hr') h
        · exact hnodup.1 (h ▸ List.mem_map.mpr ⟨r', hr', rfl⟩))
      hnodup.2
    simp only [List.foldl_cons, hstep, ht, List.map_cons, List.append_assoc,
      List.singleton_append]


/- ===== Claim theorems (part 1) ===== -/

/-- C5 (code bug): `run_event_loop` never writes the shared MQTT connectivity
flag: one loop iteration leaves the flag unchanged for every possible event
(so a `ConnAck` arriving while the flag is false leaves it false, and a
`Disconnect` or poll error arriving while it is true leaves it true), and no
branch exits the loop.  The claim (and the gating logic in `run_polling_loop`,
whose own test documents the intended flag transitions) expects `ConnAck` to
set the flag true and `Disconnect` / errors to set it false. -/
theorem c5_event_loop_never_writes_connectivity_flag :
    ∀ (ts : List RStr) (sink : Bool) (ev : MqttPollResult) (b : Bool),
      (run_event_step ts sink ev b).1 = b ∧
      (run_event_step ts sink ev b).2.2 = true := by
  intro ts sink ev b
  cases ev with
  | okIncoming i => cases i <;> exact ⟨rfl, rfl⟩
  | okOutgoing => exact ⟨rfl, rfl⟩
  | err => exact ⟨rfl, rfl⟩

/-- C6: every error outcome of the read-until-prompt phase of
`VcontroldClient::execute` (timeout, end-of-stream `ConnectionLost`, or an
I/O error) clears the stored connection slot to `None` and returns the
corresponding error, so the next `execute` dials a fresh connection. -/
theorem c6_execute_error_paths_clear_connection :
    ∀ (conn : Option Connection) (e : RStr),
      execute_read_phase conn .timedOut = (Option.none, some .timeout) ∧
      execute_read_phase conn (.failed .connectionLost) =
        (Option.none, some .connectionLost) ∧
      execute_read_phase conn (.failed (.io e)) = (Option.none, some (.io e)) ∧
      execute_read_phase conn .completed = (conn, Option.none) := by
  intro conn e
  exact ⟨rfl, rfl, rfl, rfl⟩

/-- C10: `build_json_response` contributes a key only for results whose error
field is absent: the built object is unchanged when results carrying an error
message are filtered away beforehand, and every key of the object comes from
an error-free result of the input. -/
theorem c10_errored_results_never_contribute (results : List CommandResult) :
    build_json_map results =
      build_json_map (results.filter (fun r => r.error = Option.none)) ∧
    ∀ p ∈ build_json_map results,
      ∃ r ∈ results, r.error = Option.none ∧ r.command = p.1 := by
  constructor
  · exact foldl_buildStep_filter results []
  · intro p hp
    rcases foldl_buildStep_mem results [] p hp with h | h
    · cases h
    · exact h

/-- C4 (counterexample): on an error-free input whose command names repeat,
the keys of the JSON object built by `build_json_response` are not the command
names of the input in input order (the repeated name collapses to one key). -/
theorem c4_counterexample :
    (∀ r ∈ [(⟨"a".data, .number (.finite 1), [], Option.none⟩ : CommandResult),
            ⟨"a".data, .number (.finite 2), [], Option.none⟩],
        r.error = Option.none) ∧
    (build_json_map [⟨"a".data, .number (.finite 1), [], Option.none⟩,
        ⟨"a".data, .number (.finite 2), [], Option.none⟩]).map Prod.fst ≠
      ([⟨"a".data, .number (.finite 1), [], Option.none⟩,
        (⟨"a".data, .number (.finite 2), [], Option.none⟩ : CommandResult)]).map
        CommandResult.command := by
  constructor
  · decide
  · decide

/-- C4 (amended): for every list of error-free results whose command names are
pairwise distinct, `build_json_response` yields the JSON object whose keys are
exactly the command names in input order and whose values are the results'
values mapped by `to_json_value`. -/
theorem c4_amended_build_json_in_order (results : List CommandResult)
    (herr : ∀ r ∈ results, r.error = Option.none)
    (hnodup : (results.map CommandResult.command).Nodup) :
    build_json_map results =
      results.map (fun r => (r.command, r.value.to_json_value)) := by
  have h := foldl_buildStep_append results [] herr (by simp) hnodup
  simpa using h

/-- C4 (witness for the amended theorem): a concrete two-element error-free
input with distinct names maps to its key/value pairs in order. -/
theorem c4_amended_build_json_in_order_witness :
    build_json_map [⟨"getTempA".data, .number (.finite (43/2)), [], Option.none⟩,
        ⟨"getTempB".data, .number (.finite 45), [], Option.none⟩] =
      [("getTempA".data, JValue.num (43/2)), ("getTempB".data, JValue.num 45)] := by
  have h := c4_amended_build_json_in_order
    [⟨"getTempA".data, .number (.finite (43/2)), [], Option.none⟩,
     ⟨"getTempB".data, .number (.finite 45), [], Option.none⟩]
    (by decide) (by decide)
  simpa using h

/-- C7 (counterexample): a request whose single command executed without a
session error but returned an `ERR:` line (so no error-free `CommandResult`
exists) is still answered: the subscriber publishes the empty JSON object
rather than dropping the request. -/
theorem c7_counterexample :
    process_request [Except.ok ⟨"bad".data, Value.none, "ERR: x".data,
        some "ERR: x".data⟩] = some [] ∧
    (⟨"bad".data, Value.none, "ERR: x".data,
        some "ERR: x".data⟩ : CommandResult).error ≠ Option.none := by
  constructor
  · rfl
  · decide

/-- C7 (amended): the subscriber filters the batch results to those whose
`execute` call succeeded (transport-level `Ok`), not on the `error` field of
the `CommandResult`; it publishes a response iff at least one such result
exists, even when every surviving result carries an error message (the
response is then the empty JSON object). -/
theorem c7_amended_publishes_iff_some_ok
    (results : List (Except VcontroldError CommandResult)) :
    ((process_request results).isSome = true ↔
      ∃ cr, Except.ok cr ∈ results) ∧
    (process_request results = Option.none ∨
      process_request results =
        some (build_json_map (results.filterMap (fun r => r.toOption)))) := by
  constructor
  · unfold process_request
    by_cases h : results.filterMap (fun r => r.toOption) = []
    · rw [if_pos h]
      constructor
      · intro hft; exact absurd hft (by simp)
      · rintro ⟨cr, hcr⟩
        have := List.filterMap_eq_nil_iff.mp h _ hcr
        simp [Except.toOption] at this
    · rw [if_neg h]
      simp only [Option.isSome_some, true_iff]
      rcases List.exists_mem_of_ne_nil _ h with ⟨v, hv⟩
      rcases List.mem_filterMap.mp hv with ⟨r, hr, hrv⟩
      cases r with
      | ok cr => exact ⟨cr, hr⟩
      | error e => simp [Except.toOption] at hrv
  · unfold process_request
    by_cases h : results.filterMap (fun r => r.toOption) = []
    · rw [if_pos h]; exact Or.inl rfl
    · rw [if_neg h]; exact Or.inr rfl


/-- C9: every command accepted by `validate_command` is formatted by
`format_command` as its trimmed text followed by a single line feed; the
trimmed text is non-empty and free of control characters, so the wire line
contains exactly one newline, at its end, and cannot embed a second command. -/
theorem c9_validated_command_wire_format (cmd : RStr)
    (h : validate_command cmd = .ok ()) :
    format_command cmd = rustTrim cmd ++ ['\n'] ∧
    rustTrim cmd ≠ [] ∧
    (∀ c ∈ rustTrim cmd, rustIsControl c = false) ∧
    (format_command cmd).count '\n' = 1 ∧
    (format_command cmd).getLast? = some '\n' := by
  simp only [validate_command] at h
  split_ifs at h with h1 h2
  have hctl : ∀ c ∈ rustTrim cmd, rustIsControl c = false := by
    intro c hc
    by_contra hcon
    have hcolor : rustIsControl c = true := by
      cases hcc : rustIsControl c
      · exact absurd hcc hcon
      · rfl
    have hne : c ≠ ' ' := by
      intro hsp
      rw [hsp] at hcolor
      exact absurd hcolor (by decide)
    exact h2 (List.any_eq_true.mpr ⟨c, hc, by simp [hcolor, hne]⟩)
  refine ⟨rfl, h1, hctl, ?_, ?_⟩
  · unfold format_command
    rw [List.count_append]
    have hz : (rustTrim cmd).count '\n' = 0 := by
      rw [List.count_eq_zero]
      intro hmem
      have := hctl '\n' hmem
      exact absurd this (by decide)
    rw [hz]
    rfl
  · unfold format_command
    exact List.getLast?_concat _

/-- C9 (witness): the concrete command `" getTempA "` validates, and its wire
form is the trimmed text plus exactly one trailing newline. -/
theorem c9_validated_command_wire_format_witness :
    format_command " getTempA ".data = rustTrim " getTempA ".data ++ ['\n'] ∧
    rustTrim " getTempA ".data ≠ [] ∧
    (∀ c ∈ rustTrim " getTempA ".data, rustIsControl c = false) ∧
    (format_command " getTempA ".data).count '\n' = 1 ∧
    (format_command " getTempA ".data).getLast? = some '\n' :=
  c9_validated_command_wire_format " getTempA ".data (by rfl)

/-- C1 (counterexample): on input `"inf"` the first token parses (in Rust, via
`str::parse::<f64>`) as positive infinity, which is not finite; the claim then
demands `value = text("inf")`, but the code stores `value = number(inf)`. -/
theorem c1_counterexample :
    parseF64 "inf".data = some (RustFloat.inf false) ∧
    RustFloat.isFinite (RustFloat.inf false) = false ∧
    rustTrim "inf".data = "inf".data ∧
    "inf".data ≠ [] ∧
    (parse_response "c".data "inf".data).value =
      Value.number (RustFloat.inf false) ∧
    Value.number (RustFloat.inf false) ≠ Value.string "inf".data := by
  refine ⟨by decide, by decide, by decide, by decide, by decide, by decide⟩

/-- C1 (amended): `parse_response` is total and, with "parses as a number"
in place of "parses as a finite number": if the trimmed input starts with
`ERR:` the result has `value = absent` and `error = Some(trimmed)`; otherwise
`error` is absent and the value is `number` exactly when the first
whitespace-delimited token parses as an f64 (finite or not), else `text` of
the trimmed input when non-empty, else `absent`.  The §3 invariant holds:
`error` present implies `value = absent`; `error` absent implies the value is
a number or a non-empty text unless the trimmed line was empty. -/
theorem c1_amended_parse_response_shape (command s : RStr) :
    (parse_response command s).command = command ∧
    (parse_response command s).raw = rustTrim s ∧
    (errMark.isPrefixOf (rustTrim s) = true →
      (parse_response command s).value = Value.none ∧
      (parse_response command s).error = some (rustTrim s)) ∧
    (errMark.isPrefixOf (rustTrim s) = false →
      (parse_response command s).error = Option.none ∧
      ((∃ n, parseF64 ((firstToken (rustTrim s)).getD (rustTrim s)) = some n ∧
          (parse_response command s).value = Value.number n) ∨
        (parseF64 ((firstToken (rustTrim s)).getD (rustTrim s)) = Option.none ∧
          rustTrim s ≠ [] ∧
          (parse_response command s).value = Value.string (rustTrim s)) ∨
        (parseF64 ((firstToken (rustTrim s)).getD (rustTrim s)) = Option.none ∧
          rustTrim s = [] ∧ (parse_response command s).value = Value.none))) ∧
    ((parse_response command s).error ≠ Option.none →
      (parse_response command s).value = Value.none) ∧
    ((parse_response command s).error = Option.none →
      (∃ n, (parse_response command s).value = Value.number n) ∨
      (∃ t, t ≠ [] ∧ (parse_response command s).value = Value.string t) ∨
      (rustTrim s = [] ∧ (parse_response command s).value = Value.none)) := by
  by_cases he : errMark.isPrefixOf (rustTrim s) = true
  · have hEq : parse_response command s =
        { command := command, value := Value.none, raw := rustTrim s,
          error := some (rustTrim s) } := by
      simp [parse_response, he]
    rw [hEq]
    exact ⟨rfl, rfl, fun _ => ⟨rfl, rfl⟩,
      fun hf => by rw [he] at hf; exact Bool.noConfusion hf,
      fun _ => rfl, fun hc => Option.noConfusion hc⟩
  · have he' : errMark.isPrefixOf (rustTrim s) = false := by
      revert he
      cases errMark.isPrefixOf (rustTrim s) <;> simp
    cases hp : parseF64 ((firstToken (rustTrim s)).getD (rustTrim s)) with
    | some n =>
      have hEq : parse_response command s =
          { command := command, value := Value.number n, raw := rustTrim s,
            error := Option.none } := by
        simp [parse_response, he', hp]
      rw [hEq]
      exact ⟨rfl, rfl, fun hf => by rw [he'] at hf; exact Bool.noConfusion hf,
        fun _ => ⟨rfl, Or.inl ⟨n, rfl, rfl⟩⟩,
        fun hcon => absurd rfl hcon, fun _ => Or.inl ⟨n, rfl⟩⟩
    | none =>
      by_cases hraw : rustTrim s = []
      · have hEq : parse_response command s =
            { command := command, value := Value.none, raw := rustTrim s,
              error := Option.none } := by
          simp only [parse_response, he', Bool.false_eq_true, if_false, hp]
          simp [hraw]
        rw [hEq]
        exact ⟨rfl, rfl, fun hf => by rw [he'] at hf; exact Bool.noConfusion hf,
          fun _ => ⟨rfl, Or.inr (Or.inr ⟨rfl, hraw, rfl⟩)⟩,
          fun hcon => absurd rfl hcon,
          fun _ => Or.inr (Or.inr ⟨hraw, rfl⟩)⟩
      · have hEq : parse_response command s =
            { command := command, value := Value.string (rustTrim s),
              raw := rustTrim s, error := Option.none } := by
          simp [parse_response, he', hp, hraw]
        rw [hEq]
        exact ⟨rfl, rfl, fun hf => by rw [he'] at hf; exact Bool.noConfusion hf,
          fun _ => ⟨rfl, Or.inr (Or.inl ⟨rfl, hraw, rfl⟩)⟩,
          fun hcon => absurd rfl hcon,
          fun _ => Or.inr (Or.inl ⟨rustTrim s, hraw, rfl⟩)⟩

/-- C1 (witness for the amended theorem): concrete instances of the error
branch and of the numeric branch. -/
theorem c1_amended_parse_response_shape_witness :
    ((parse_response "c".data "ERR: unknown".data).value = Value.none ∧
      (parse_response "c".data "ERR: unknown".data).error =
        some (rustTrim "ERR: unknown".data)) ∧
    (parse_response "c".data "48.1 Grad".data).error = Option.none :=
  ⟨(c1_amended_parse_response_shape "c".data "ERR: unknown".data).2.2.1
      (by decide),
    ((c1_amended_parse_response_shape "c".data "48.1 Grad".data).2.2.2.1
      (by decide)).1⟩

/-- C2 (counterexample): with an empty command in the list (every command
length is at most `max_length = 4`), `batch_commands` produces a single batch
whose comma-joined length is 5, exceeding the budget: the internal length
counter misses the separator that follows an empty leading command. -/
theorem c2_counterexample :
    batch_commands ["".data, "ab".data, "c".data] 4 =
      [["".data, "ab".data, "c".data]] ∧
    (∀ c ∈ ["".data, "ab".data, "c".data], byteLen c ≤ 4) ∧
    joinLen ["".data, "ab".data, "c".data] = 5 ∧ 4 < 5 := by
  refine ⟨by decide, by decide, by decide, by decide⟩

/- ===== C2 amended: batching budget ===== -/

theorem byteLen_append (a b : RStr) :
    byteLen (a ++ b) = byteLen a + byteLen b := by
  unfold byteLen
  rw [List.map_append, List.sum_append]

theorem byteLen_pos {a : RStr} (h : a ≠ []) : 1 ≤ byteLen a := by
  cases a with
  | nil => cases h rfl
  | cons c t =>
    unfold byteLen
    simp only [List.map_cons, List.sum_cons]
    have := c.utf8Size_pos
    omega

theorem intercalate_cons_of_ne (sep a : RStr) {m : List RStr} (hm : m ≠ []) :
    List.intercalate sep (a :: m) = a ++ sep ++ List.intercalate sep m := by
  cases m with
  | nil => cases hm rfl
  | cons y t =>
    simp [List.intercalate, List.intersperse_cons₂, List.append_assoc]

theorem joinLen_nil : joinLen [] = 0 := rfl

theorem joinLen_singleton (x : RStr) : joinLen [x] = byteLen x := by
  unfold joinLen
  simp [List.intercalate]

theorem joinLen_cons_of_ne (a : RStr) {m : List RStr} (hm : m ≠ []) :
    joinLen (a :: m) = byteLen a + 1 + joinLen m := by
  unfold joinLen
  rw [intercalate_cons_of_ne _ _ hm]
  rw [byteLen_append, byteLen_append]
  have h1 : byteLen [','] = 1 := by decide
  omega

theorem joinLen_append_singleton (l : List RStr) (x : RStr) :
    joinLen (l ++ [x]) = (if l = [] then 0 else joinLen l + 1) + byteLen x := by
  cases l with
  | nil => simp [joinLen_singleton]
  | cons a t =>
    induction t generalizing a with
    | nil =>
      rw [List.singleton_append, joinLen_cons_of_ne _ (by simp),
        joinLen_singleton, joinLen_singleton]
      simp only [List.cons_ne_nil, if_false]
    | cons b t ih =>
      rw [List.cons_append, joinLen_cons_of_ne _ (by simp),
        joinLen_cons_of_ne _ (by simp), ih b]
      by_cases hbt : (b :: t : List RStr) = []
      · cases hbt
      · simp only [List.cons_ne_nil, if_false]
        omega

/-- The flushing branch of one `batch_commands` iteration. -/
theorem batch_step_eq_flush {max_length : Nat} {st : BatchState} {cmd : RStr}
    (hc : st.current_length + (if st.current_batch = [] then 0 else 1) +
        byteLen cmd > max_length ∧ st.current_batch ≠ []) :
    batch_step max_length st cmd =
      { batches := st.batches ++ [st.current_batch]
        current_batch := [cmd]
        current_length := byteLen cmd } := by
  simp only [batch_step]
  rw [if_pos hc]
  simp

/-- The non-flushing branch of one `batch_commands` iteration. -/
theorem batch_step_eq_push {max_length : Nat} {st : BatchState} {cmd : RStr}
    (hc : ¬(st.current_length + (if st.current_batch = [] then 0 else 1) +
        byteLen cmd > max_length ∧ st.current_batch ≠ [])) :
    batch_step max_length st cmd =
      { batches := st.batches
        current_batch := st.current_batch ++ [cmd]
        current_length := st.current_length +
          (if st.current_length = 0 then byteLen cmd else 1 + byteLen cmd) } := by
  simp only [batch_step]
  rw [if_neg hc]

/-- Loop invariant of `batch_commands`: the tracked length equals the joined
length of the current batch (they are zero together), the current batch and
every emitted batch respect the budget, and emitted batches are non-empty. -/
def batchInv (max_length : Nat) (st : BatchState) : Prop :=
  (st.current_batch = [] ↔ st.current_length = 0) ∧
  st.current_length = joinLen st.current_batch ∧
  joinLen st.current_batch ≤ max_length ∧
  (∀ b ∈ st.batches, joinLen b ≤ max_length ∧ b ≠ [])

theorem batch_step_inv {max_length : Nat} {st : BatchState} {cmd : RStr}
    (hne : cmd ≠ []) (hle : byteLen cmd ≤ max_length)
    (hst : batchInv max_length st) :
    batchInv max_length (batch_step max_length st cmd) := by
  obtain ⟨hiff, hlen, hbound, hbatches⟩ := hst
  have hpos := byteLen_pos hne
  by_cases hc : st.current_length +
      (if st.current_batch = [] then 0 else 1) + byteLen cmd > max_length ∧
      st.current_batch ≠ []
  · rw [batch_step_eq_flush hc]
    refine ⟨?_, ?_, ?_, ?_⟩
    · simp only []
      constructor
      · intro h; cases h
      · intro h; omega
    · simp [joinLen_singleton]
    · simp only [joinLen_singleton]
      omega
    · intro b hb
      rcases List.mem_append.mp hb with h | h
      · exact hbatches b h
      · simp only [List.mem_singleton] at h
        subst h
        exact ⟨hbound, hc.2⟩
  · rw [batch_step_eq_push hc]
    by_cases hcur : st.current_batch = []
    · have hzero : st.current_length = 0 := hiff.mp hcur
      refine ⟨?_, ?_, ?_, hbatches⟩
      · show st.current_batch ++ [cmd] = [] ↔
          st.current_length +
            (if st.current_length = 0 then byteLen cmd else 1 + byteLen cmd) = 0
        rw [hcur, hzero, List.nil_append, if_pos rfl]
        constructor
        · intro h; cases h
        · intro h; omega
      · show st.current_length +
            (if st.current_length = 0 then byteLen cmd else 1 + byteLen cmd) =
          joinLen (st.current_batch ++ [cmd])
        rw [hcur, hzero, List.nil_append, if_pos rfl, joinLen_singleton]
        omega
      · show joinLen (st.current_batch ++ [cmd]) ≤ max_length
        rw [hcur, List.nil_append, joinLen_singleton]
        omega
    · have hnz : st.current_length ≠ 0 := fun h => hcur (hiff.mpr h)
      have hcond : st.current_length + 1 + byteLen cmd ≤ max_length := by
        by_contra hgt
        exact hc ⟨by rw [if_neg hcur]; omega, hcur⟩
      refine ⟨?_, ?_, ?_, hbatches⟩
      · show st.current_batch ++ [cmd] = [] ↔
          st.current_length +
            (if st.current_length = 0 then byteLen cmd else 1 + byteLen cmd) = 0
        rw [if_neg hnz]
        constructor
        · intro h
          exact absurd h (by simp)
        · intro h
          omega
      · show st.current_length +
            (if st.current_length = 0 then byteLen cmd else 1 + byteLen cmd) =
          joinLen (st.current_batch ++ [cmd])
        rw [joinLen_append_singleton, if_neg hcur, if_neg hnz]
        omega
      · show joinLen (st.current_batch ++ [cmd]) ≤ max_length
        rw [joinLen_append_singleton, if_neg hcur]
        omega

theorem foldl_batch_inv (max_length : Nat) :
    ∀ (cmds : List RStr) (st : BatchState),
      (∀ c ∈ cmds, c ≠ [] ∧ byteLen c ≤ max_length) →
      batchInv max_length st →
      batchInv max_length (cmds.foldl (batch_step max_length) st) := by
  intro cmds
  induction cmds with
  | nil => intro st _ hst; exact hst
  | cons c t ih =>
    intro st hcmds hst
    have hc := hcmds c (List.mem_cons_self _ _)
    exact ih _ (fun x hx => hcmds x (List.mem_cons_of_mem _ hx))
      (batch_step_inv hc.1 hc.2 hst)

theorem batch_step_flatten (max_length : Nat) (st : BatchState) (cmd : RStr) :
    (batch_step max_length st cmd).batches.flatten ++
        (batch_step max_length st cmd).current_batch =
      st.batches.flatten ++ st.current_batch ++ [cmd] := by
  by_cases hc : st.current_length +
      (if st.current_batch = [] then 0 else 1) + byteLen cmd > max_length ∧
      st.current_batch ≠ []
  · rw [batch_step_eq_flush hc]
    simp [List.flatten_append, List.append_assoc]
  · rw [batch_step_eq_push hc]
    simp [List.append_assoc]

theorem foldl_batch_flatten (max_length : Nat) :
    ∀ (cmds : List RStr) (st : BatchState),
      (cmds.foldl (batch_step max_length) st).batches.flatten ++
          (cmds.foldl (batch_step max_length) st).current_batch =
        st.batches.flatten ++ st.current_batch ++ cmds := by
  intro cmds
  induction cmds with
  | nil => intro st; simp
  | cons c t ih =>
    intro st
    rw [List.foldl_cons, ih, batch_step_flatten]
    simp [List.append_assoc]

/-- C2 (amended): for every list of non-empty commands each of byte length at
most `max_length`, every batch produced by `batch_commands` joins (with single
commas) to at most `max_length` bytes and is non-empty, and the concatenation
of the batches in order is exactly the input list. -/
theorem c2_amended_batching_budget (commands : List RStr) (max_length : Nat)
    (h : ∀ c ∈ commands, c ≠ [] ∧ byteLen c ≤ max_length) :
    (∀ b ∈ batch_commands commands max_length,
        joinLen b ≤ max_length ∧ b ≠ []) ∧
    (batch_commands commands max_length).flatten = commands := by
  have hinit : batchInv max_length ⟨[], [], 0⟩ := by
    refine ⟨by simp, rfl, by simp [joinLen_nil], by simp⟩
  have hinv := foldl_batch_inv max_length commands ⟨[], [], 0⟩ h hinit
  have hflat := foldl_batch_flatten max_length commands ⟨[], [], 0⟩
  obtain ⟨hiff, hlen, hbound, hbatches⟩ := hinv
  simp only [List.flatten_nil, List.nil_append] at hflat
  unfold batch_commands
  constructor
  · intro b hb
    by_cases hcur :
        (commands.foldl (batch_step max_length) ⟨[], [], 0⟩).current_batch = []
    · rw [if_neg (by simpa using hcur)] at hb
      exact hbatches b hb
    · rw [if_pos (by simpa using hcur)] at hb
      rcases List.mem_append.mp hb with hmem | hmem
      · exact hbatches b hmem
      · simp only [List.mem_singleton] at hmem
        subst hmem
        exact ⟨hbound, hcur⟩
  · by_cases hcur :
        (commands.foldl (batch_step max_length) ⟨[], [], 0⟩).current_batch = []
    · rw [if_neg (by simpa using hcur)]
      rw [hcur, List.append_nil] at hflat
      exact hflat
    · rw [if_pos (by simpa using hcur)]
      rw [List.flatten_append]
      simpa using hflat

/-- C2 (witness for the amended theorem): the four-command example from the
source tests at `max_length = 40` satisfies all three conclusions. -/
theorem c2_amended_batching_budget_witness :
    (∀ b ∈ batch_commands ["getTempWWObenIst".data, "getTempWWsoll".data,
        "getTempA".data, "getTempB".data] 40,
      joinLen b ≤ 40 ∧ b ≠ []) ∧
    (batch_commands ["getTempWWObenIst".data, "getTempWWsoll".data,
        "getTempA".data, "getTempB".data] 40).flatten =
      ["getTempWWObenIst".data, "getTempWWsoll".data,
        "getTempA".data, "getTempB".data] :=
  c2_amended_batching_budget _ 40 (by decide)

/- ===== C8: prompt framing of read_until_prompt ===== -/

@[simp] theorem utf8Lossy_nil : utf8Lossy [] = [] := rfl

theorem ascii_not_cont {a : Nat} (ha : a < 0x80) : isCont a = false := by
  unfold isCont
  have h : ¬(0x80 ≤ a) := by omega
  simp [h]

theorem ascii_not_validCont1 (lead : Nat) {a : Nat} (ha : a < 0x80) :
    validCont1 lead a = false := by
  unfold validCont1
  have h1 : ¬(0xA0 ≤ a) := by omega
  have h2 : ¬(0x80 ≤ a) := by omega
  have h3 : ¬(0x90 ≤ a) := by omega
  split_ifs <;> simp [isCont, h1, h2, h3]

theorem decodeOne_append_head_ascii (b : Nat) (t : List Nat) (a : Nat)
    (s : List Nat) (ha : a < 0x80) :
    decodeOne b (t ++ a :: s) = decodeOne b t := by
  have h1 : isCont a = false := ascii_not_cont ha
  have h2 : ∀ lead, validCont1 lead a = false :=
    fun lead => ascii_not_validCont1 lead ha
  rcases t with _ | ⟨c1, _ | ⟨c2, _ | ⟨c3, t'⟩⟩⟩
  · rcases s with _ | ⟨a2, _ | ⟨a3, s'⟩⟩ <;> simp [decodeOne, h1, h2]
  · rcases s with _ | ⟨a2, s'⟩ <;> simp [decodeOne, h1, h2]
  · simp [decodeOne, h1, h2]
  · simp [decodeOne]

theorem decodeOne_snd_le (b : Nat) (t : List Nat) :
    (decodeOne b t).2 ≤ t.length := by
  rcases t with _ | ⟨c1, _ | ⟨c2, _ | ⟨c3, t'⟩⟩⟩ <;>
    · simp only [decodeOne]
      split_ifs <;> simp

theorem utf8LossyGo_fuel :
    ∀ (fuel : Nat) (l : List Nat), l.length ≤ fuel →
      utf8LossyGo fuel l = utf8Lossy l := by
  intro fuel
  induction fuel using Nat.strong_induction_on with
  | _ fuel ih =>
    intro l hl
    cases l with
    | nil => cases fuel <;> rfl
    | cons b rest =>
      cases fuel with
      | zero => simp at hl
      | succ n =>
        have hk := decodeOne_snd_le b rest
        have hlen := List.length_drop (decodeOne b rest).2 rest
        have hl' : rest.length ≤ n := by
          simp only [List.length_cons] at hl
          omega
        show _ = utf8LossyGo (rest.length + 1) (b :: rest)
        rw [utf8LossyGo, utf8LossyGo]
        have h1 := ih n (by omega) (rest.drop (decodeOne b rest).2) (by omega)
        have h2 := ih rest.length (by omega) (rest.drop (decodeOne b rest).2)
          (by omega)
        rw [h1, h2]

theorem utf8Lossy_cons (b : Nat) (rest : List Nat) :
    utf8Lossy (b :: rest) =
      (decodeOne b rest).1 ::
        utf8Lossy (rest.drop (decodeOne b rest).2) := by
  show utf8LossyGo (rest.length + 1) (b :: rest) = _
  rw [utf8LossyGo]
  have hk := decodeOne_snd_le b rest
  have hlen := List.length_drop (decodeOne b rest).2 rest
  rw [utf8LossyGo_fuel _ _ (by omega)]

theorem utf8Lossy_append_cons_ascii (a : Nat) (s : List Nat) (ha : a < 0x80) :
    ∀ (n : Nat) (l : List Nat), l.length ≤ n →
      utf8Lossy (l ++ a :: s) = utf8Lossy l ++ utf8Lossy (a :: s) := by
  intro n
  induction n with
  | zero =>
    intro l hl
    have : l = [] := List.length_eq_zero.mp (Nat.le_zero.mp hl)
    subst this
    simp
  | succ n ih =>
    intro l hl
    cases l with
    | nil => simp
    | cons b t =>
      rw [List.cons_append, utf8Lossy_cons, utf8Lossy_cons,
        decodeOne_append_head_ascii b t a s ha]
      have hk := decodeOne_snd_le b t
      rw [List.drop_append_of_le_length hk]
      have hlen := List.length_drop (decodeOne b t).2 t
      rw [ih (t.drop (decodeOne b t).2)
        (by simp only [List.length_cons] at hl; omega)]
      simp

/-- Successful reads of `read_until_prompt_go` return the lossy decoding of a
raw byte vector that ends with the prompt bytes. -/
theorem read_until_prompt_go_ok :
    ∀ (input raw : List Nat) (buffer : RStr) (rest : List Nat),
      read_until_prompt_go raw input = .ok (buffer, rest) →
      ∃ raw', buffer = utf8Lossy raw' ∧ promptBytes.isSuffixOf raw' = true := by
  intro input
  induction input with
  | nil =>
    intro raw buffer rest h
    simp [read_until_prompt_go] at h
  | cons b t ih =>
    intro raw buffer rest h
    rw [read_until_prompt_go] at h
    by_cases hp : promptBytes.isSuffixOf (raw ++ [b]) = true
    · rw [if_pos hp] at h
      refine ⟨raw ++ [b], ?_, hp⟩
      cases h
      rfl
    · rw [if_neg hp] at h
      exact ih (raw ++ [b]) buffer rest h

theorem findSub_isSome_of_suffix {needle : RStr} (hne : needle ≠ []) :
    ∀ {hay : RStr}, needle <:+ hay → (findSub hay needle).isSome = true := by
  intro hay
  induction hay with
  | nil =>
    intro h
    rcases h with ⟨t, ht⟩
    rcases List.append_eq_nil.mp ht with ⟨_, h2⟩
    exact absurd h2 hne
  | cons a t ih =>
    intro h
    unfold findSub
    by_cases hp : needle.isPrefixOf (a :: t) = true
    · rw [if_pos hp]
      rfl
    · rw [if_neg hp]
      rcases List.suffix_cons_iff.mp h with heq | hsuf
      · exfalso
        apply hp
        rw [List.isPrefixOf_iff_prefix, heq]
      · have hsome := ih hsuf
        cases hfs : findSub t needle with
        | none => simp [hfs] at hsome
        | some i => simp [hfs]

/-- C8: whenever `read_until_prompt` returns successfully, the decoded buffer
ends with the prompt string `vctrld>`, and `extract_response` applied to that
buffer returns `some`; hence the `unwrap_or("")` fallback in `execute` is
unreachable after a successful read. -/
theorem c8_read_success_buffer_ends_with_prompt
    (input : List Nat) (buffer : RStr) (rest : List Nat)
    (h : read_until_prompt input = .ok (buffer, rest)) :
    PROMPT.isSuffixOf buffer = true ∧
    (extract_response buffer).isSome = true := by
  obtain ⟨raw', hbuf, hsuf⟩ := read_until_prompt_go_ok input [] buffer rest h
  have hsuf' : promptBytes <:+ raw' := by
    rw [← List.isSuffixOf_iff_suffix]
    exact hsuf
  obtain ⟨pre, hpre⟩ := hsuf'
  have hsplit : utf8Lossy raw' = utf8Lossy pre ++ utf8Lossy promptBytes := by
    rw [← hpre]
    exact utf8Lossy_append_cons_ascii 118 (promptBytes.drop 1) (by omega)
      pre.length pre (le_refl _)
  have hprompt : utf8Lossy promptBytes = PROMPT := by decide
  have hbuf' : buffer = utf8Lossy pre ++ PROMPT := by
    rw [hbuf, hsplit, hprompt]
  have hsufP : PROMPT <:+ buffer := ⟨utf8Lossy pre, hbuf'.symm⟩
  constructor
  · rw [List.isSuffixOf_iff_suffix]
    exact hsufP
  · have hsome := findSub_isSome_of_suffix (by decide) hsufP
    unfold extract_response
    cases hfs : findSub buffer PROMPT with
    | none => simp [hfs] at hsome
    | some i => rfl

/-- C8 (witness): a concrete stream delivering `21.5 Gradvctrld>` followed by
two extra bytes: the decoded buffer ends with the prompt and
`extract_response` succeeds on it. -/
theorem c8_read_success_buffer_ends_with_prompt_witness :
    PROMPT.isSuffixOf "21.5 Gradvctrld>".data = true ∧
    (extract_response "21.5 Gradvctrld>".data).isSome = true :=
  c8_read_success_buffer_ends_with_prompt
    ("21.5 Gradvctrld>xy".data.map Char.toNat)
    "21.5 Gradvctrld>".data ("xy".data.map Char.toNat) (by rfl)

/- ===== C3: decimal digit machinery ===== -/

theorem natToDigitsGo_eq :
    ∀ (fuel n : Nat), n ≤ fuel → natToDigitsGo fuel n = Nat.digits 10 n := by
  intro fuel
  induction fuel using Nat.strong_induction_on with
  | _ fuel ih =>
    intro n hn
    cases n with
    | zero => cases fuel <;> simp [natToDigitsGo]
    | succ m =>
      cases fuel with
      | zero => omega
      | succ f =>
        rw [natToDigitsGo]
        rw [Nat.digits_def' (by norm_num : (1:ℕ) < 10) (Nat.succ_pos m)]
        congr 1
        have h2 : (m + 1) / 10 < m + 1 := Nat.div_lt_self (Nat.succ_pos m)
          (by norm_num)
        exact ih f (by omega) _ (by omega)

theorem natDigits_eq (n : Nat) : natDigits n = Nat.digits 10 n :=
  natToDigitsGo_eq n n (le_refl n)

theorem digitChar_toNat {d : Nat} (h : d < 10) : (digitChar d).toNat = 48 + d := by
  interval_cases d <;> rfl

theorem digitVal_digitChar {d : Nat} (h : d < 10) : digitVal (digitChar d) = d := by
  unfold digitVal
  rw [digitChar_toNat h]
  omega

theorem isDigitC_digitChar {d : Nat} (h : d < 10) : isDigitC (digitChar d) = true := by
  interval_cases d <;> rfl

theorem parseDigits_go (l : RStr) :
    ∀ acc : Nat, l.foldl (fun a c => 10 * a + digitVal c) acc =
      acc * 10 ^ l.length + l.foldl (fun a c => 10 * a + digitVal c) 0 := by
  induction l with
  | nil => intro acc; simp
  | cons c t ih =>
    intro acc
    rw [List.foldl_cons, List.foldl_cons, ih, ih (10 * 0 + digitVal c),
      List.length_cons]
    ring

theorem parseDigits_cons (c : Char) (t : RStr) :
    parseDigits (c :: t) = digitVal c * 10 ^ t.length + parseDigits t := by
  unfold parseDigits
  rw [List.foldl_cons, parseDigits_go]
  ring

theorem parseDigits_append (a b : RStr) :
    parseDigits (a ++ b) = parseDigits a * 10 ^ b.length + parseDigits b := by
  unfold parseDigits
  rw [List.foldl_append, parseDigits_go]

theorem parseDigits_rev_map (ds : List Nat) (h : ∀ d ∈ ds, d < 10) :
    parseDigits (ds.reverse.map digitChar) = Nat.ofDigits 10 ds := by
  induction ds with
  | nil => simp [parseDigits]
  | cons d t ih =>
    rw [List.reverse_cons, List.map_append, parseDigits_append]
    simp only [List.map_cons, List.map_nil]
    rw [ih (fun x hx => h x (List.mem_cons_of_mem _ hx))]
    have hd : d < 10 := h d (List.mem_cons_self _ _)
    have h1 : parseDigits [digitChar d] = d := by
      rw [parseDigits_cons]
      simp [parseDigits, digitVal_digitChar hd]
    rw [h1, Nat.ofDigits_cons]
    simp
    ring

theorem parseDigits_natToDecimal (n : Nat) : parseDigits (natToDecimal n) = n := by
  unfold natToDecimal
  by_cases h : n = 0
  · subst h
    rfl
  · rw [if_neg h, natDigits_eq]
    rw [parseDigits_rev_map _ (fun d hd => Nat.digits_lt_base (by norm_num) hd)]
    exact Nat.ofDigits_digits 10 n

theorem natToDecimal_ne_nil (n : Nat) : natToDecimal n ≠ [] := by
  unfold natToDecimal
  by_cases h : n = 0
  · simp [h]
  · rw [if_neg h, natDigits_eq]
    have hd : Nat.digits 10 n ≠ [] := Nat.digits_ne_nil_iff_ne_zero.mpr h
    simp [hd]

theorem natToDecimal_digits (n : Nat) :
    ∀ c ∈ natToDecimal n, isDigitC c = true := by
  intro c hc
  unfold natToDecimal at hc
  by_cases h : n = 0
  · rw [if_pos h] at hc
    simp only [List.mem_singleton] at hc
    subst hc
    rfl
  · rw [if_neg h, natDigits_eq] at hc
    rcases List.mem_map.mp hc with ⟨d, hd, hdc⟩
    rw [List.mem_reverse] at hd
    have : d < 10 := Nat.digits_lt_base (by norm_num) hd
    rw [← hdc]
    exact isDigitC_digitChar this

theorem natToDecimal_length_le (f : Nat) (hf : f < 10 ^ 6) :
    (natToDecimal f).length ≤ 6 := by
  unfold natToDecimal
  by_cases h : f = 0
  · simp [h]
  · rw [if_neg h, natDigits_eq]
    rw [List.length_map, List.length_reverse]
    by_contra hlen
    push_neg at hlen
    have h1 := Nat.base_pow_length_digits_le 10 f (by norm_num) h
    have h2 : (10:ℕ) ^ 7 ≤ 10 ^ (Nat.digits 10 f).length :=
      Nat.pow_le_pow_right (by norm_num) (by omega)
    have h3 : (10:ℕ) ^ 7 ≤ 10 * f := le_trans h2 h1
    have : (10:ℕ) ^ 6 ≤ f := by
      norm_num at h3 ⊢
      omega
    omega

theorem parseDigits_replicate_zero (k : Nat) (D : RStr) :
    parseDigits (List.replicate k '0' ++ D) = parseDigits D := by
  induction k with
  | zero => simp
  | succ k ih =>
    rw [List.replicate_succ, List.cons_append, parseDigits_cons]
    have h0 : digitVal '0' = 0 := rfl
    rw [h0, ih]
    simp

theorem parseDigits_padSix (f : Nat) : parseDigits (padSix f) = f := by
  unfold padSix
  rw [parseDigits_replicate_zero, parseDigits_natToDecimal]

theorem padSix_digits (f : Nat) : ∀ c ∈ padSix f, isDigitC c = true := by
  intro c hc
  unfold padSix at hc
  rcases List.mem_append.mp hc with h | h
  · have := List.eq_of_mem_replicate h
    subst this
    rfl
  · exact natToDecimal_digits f c h

theorem padSix_length (f : Nat) (hf : f < 10 ^ 6) : (padSix f).length = 6 := by
  unfold padSix
  rw [List.length_append, List.length_replicate]
  have := natToDecimal_length_le f hf
  omega

/- ===== C3: trailing-trim lemmas ===== -/

theorem dropWhile_append_cons_of_neg (p : Char → Bool) (X : RStr) {c : Char}
    (hc : p c = false) (Y : RStr) :
    (X ++ c :: Y).dropWhile p = X.dropWhile p ++ c :: Y := by
  rw [List.dropWhile_append]
  by_cases hX : (X.dropWhile p).isEmpty
  · rw [if_pos hX]
    rw [List.dropWhile_cons]
    rw [List.isEmpty_iff] at hX
    rw [hX, hc]
    simp
  · rw [if_neg hX]

theorem trimTrailing_append_cons (ch : Char) {d : Char} (hd : d ≠ ch)
    (A B : RStr) :
    trimTrailing ch (A ++ d :: B) = A ++ d :: trimTrailing ch B := by
  unfold trimTrailing
  rw [List.reverse_append, List.reverse_cons, List.append_assoc,
    List.singleton_append]
  rw [dropWhile_append_cons_of_neg _ _ (by simp [hd]) _]
  rw [List.reverse_append, List.reverse_cons]
  simp

theorem trimTrailing_append_self (ch : Char) (X : RStr) :
    trimTrailing ch (X ++ [ch]) = trimTrailing ch X := by
  unfold trimTrailing
  rw [List.reverse_append]
  simp [List.dropWhile_cons]

theorem trimTrailing_eq_self_of_getLast (ch : Char) (l : RStr)
    (h : ∀ c, l.getLast? = some c → c ≠ ch) : trimTrailing ch l = l := by
  unfold trimTrailing
  cases hr : l.reverse with
  | nil =>
    have : l = [] := by
      have := congrArg List.reverse hr
      simpa using this
    simp [this]
  | cons x xs =>
    have hx : l.getLast? = some x := by
      rw [← List.head?_reverse, hr]
      rfl
    have hxc : x ≠ ch := h x hx
    rw [List.dropWhile_cons]
    simp only [hxc, decide_False, Bool.false_eq_true, if_false]
    rw [← hr, List.reverse_reverse]

theorem trimTrailing_zero_spec (F : RStr) :
    parseDigits F =
      parseDigits (trimTrailing '0' F) *
        10 ^ (F.length - (trimTrailing '0' F).length) ∧
    (trimTrailing '0' F).length ≤ F.length ∧
    (∀ c ∈ trimTrailing '0' F, c ∈ F) := by
  induction F using List.reverseRecOn with
  | nil => exact ⟨rfl, le_refl _, fun c hc => hc⟩
  | append_singleton A c ih =>
    by_cases hc : c = '0'
    · subst hc
      rw [trimTrailing_append_self]
      obtain ⟨ihv, ihl, ihm⟩ := ih
      refine ⟨?_, ?_, ?_⟩
      · rw [parseDigits_append]
        have h0 : parseDigits ['0'] = 0 := rfl
        rw [h0, ihv, List.length_append, List.length_singleton]
        have hk : A.length + 1 - (trimTrailing '0' A).length =
            (A.length - (trimTrailing '0' A).length) + 1 := by omega
        rw [hk, pow_succ]
        ring
      · rw [List.length_append, List.length_singleton]
        omega
      · intro x hx
        exact List.mem_append_left _ (ihm x hx)
    · have htrim : trimTrailing '0' (A ++ [c]) = A ++ [c] := by
        have := trimTrailing_append_cons '0' hc A []
        simpa using this
      rw [htrim]
      exact ⟨by simp, le_refl _, fun x hx => hx⟩

/- ===== C3: parsing rendered decimal strings ===== -/

/-- The sign factor of a parsed value. -/
def signQ (neg : Bool) : ℚ := if neg then -1 else 1

/-- The sign characters of a rendered value. -/
def signStr (neg : Bool) : RStr := if neg then ['-'] else []

theorem isDigitC_toNat {c : Char} (h : isDigitC c = true) :
    48 ≤ c.toNat ∧ c.toNat ≤ 57 := by
  simp only [isDigitC, Bool.and_eq_true, decide_eq_true_eq] at h
  obtain ⟨h1, h2⟩ := h
  rw [Char.le_def] at h1 h2
  exact ⟨h1, h2⟩

theorem digit_ne {c x : Char} (h : isDigitC c = true)
    (hx : x.toNat < 48 ∨ 57 < x.toNat) : c ≠ x := by
  intro he
  obtain ⟨h1, h2⟩ := isDigitC_toNat h
  rw [he] at h1 h2
  rcases hx with hx | hx <;> omega

theorem lowerAscii_digit {c : Char} (h : isDigitC c = true) :
    lowerAscii c = c := by
  obtain ⟨h1, h2⟩ := isDigitC_toNat h
  unfold lowerAscii
  have hA : ¬('A' ≤ c) := by
    rw [Char.le_def]
    intro hle
    have h65 : (65 : Nat) ≤ c.toNat := hle
    omega
  simp [hA]

theorem map_lower_head_ne_special {c : Char} (hc : isDigitC c = true)
    (rest : RStr) :
    ((c :: rest).map lowerAscii = "inf".data) = False ∧
    ((c :: rest).map lowerAscii = "infinity".data) = False ∧
    ((c :: rest).map lowerAscii = "nan".data) = False := by
  rw [List.map_cons, lowerAscii_digit hc]
  have hi : c ≠ 'i' := digit_ne hc (by decide)
  have hn : c ≠ 'n' := digit_ne hc (by decide)
  refine ⟨?_, ?_, ?_⟩ <;> simp only [eq_iff_iff, iff_false] <;> intro hcontra
  · exact hi (List.cons.injEq _ _ _ _ ▸ hcontra).1
  · exact hi (List.cons.injEq _ _ _ _ ▸ hcontra).1
  · exact hn (List.cons.injEq _ _ _ _ ▸ hcontra).1

theorem takeWhile_eq_self_of_all {p : Char → Bool} :
    ∀ {l : RStr}, (∀ c ∈ l, p c = true) → l.takeWhile p = l := by
  intro l
  induction l with
  | nil => intro _; rfl
  | cons c t ih =>
    intro h
    rw [List.takeWhile_cons, h c (List.mem_cons_self _ _)]
    simp only [if_true]
    rw [ih (fun x hx => h x (List.mem_cons_of_mem _ hx))]

theorem takeWhile_all_append_cons {p : Char → Bool} {l : RStr}
    (hl : ∀ c ∈ l, p c = true) {c : Char} (hc : p c = false) (r : RStr) :
    (l ++ c :: r).takeWhile p = l := by
  rw [List.takeWhile_append_of_pos hl, List.takeWhile_cons, hc]
  simp

theorem mkDecimalQ_nil_zero (neg : Bool) (ip : RStr) :
    mkDecimalQ neg ip [] 0 = signQ neg * (parseDigits ip : ℚ) := by
  unfold mkDecimalQ signQ
  cases neg <;> simp

theorem mkDecimalQ_zero (neg : Bool) (ip fp : RStr) :
    mkDecimalQ neg ip fp 0 =
      signQ neg * ((parseDigits (ip ++ fp) : ℚ) / 10 ^ fp.length) := by
  unfold mkDecimalQ signQ
  cases neg <;> simp

theorem parseNumberPart_digits (neg : Bool) (I : RStr) (hI : I ≠ [])
    (hdI : ∀ c ∈ I, isDigitC c = true) :
    parseNumberPart neg I = some (.finite (signQ neg * (parseDigits I : ℚ))) := by
  simp only [parseNumberPart]
  rw [takeWhile_eq_self_of_all hdI, List.drop_length]
  have hIfalse : (decide (I = [])) = false := by simp [hI]
  cases I with
  | nil => exact absurd rfl hI
  | cons c t =>
    simp only [hIfalse, Bool.false_eq_true, if_false]
    simp only [parseExpOpt, Option.map_some']
    rw [mkDecimalQ_nil_zero]
    rw [if_neg hI]

theorem parseNumberPart_frac (neg : Bool) (I F : RStr) (hI : I ≠ [])
    (hdI : ∀ c ∈ I, isDigitC c = true) (hdF : ∀ c ∈ F, isDigitC c = true) :
    parseNumberPart neg (I ++ '.' :: F) =
      some (.finite (signQ neg *
        ((parseDigits (I ++ F) : ℚ) / 10 ^ F.length))) := by
  simp only [parseNumberPart]
  rw [takeWhile_all_append_cons hdI (by rfl) F, List.drop_left]
  simp only [takeWhile_eq_self_of_all hdF, List.drop_length]
  have hIfalse : (decide (I = [])) = false := by simp [hI]
  simp only [hIfalse, Bool.false_and, Bool.false_eq_true, if_false]
  simp only [parseExpOpt, Option.map_some']
  rw [mkDecimalQ_zero]

theorem stripSign_digit_head {c : Char} (hc : isDigitC c = true) (rest : RStr) :
    stripSign (c :: rest) = (false, c :: rest) := by
  have h1 : c ≠ '-' := digit_ne hc (by decide)
  have h2 : c ≠ '+' := digit_ne hc (by decide)
  simp [stripSign, h1, h2]

theorem parseF64_signed (neg : Bool) (c : Char) (rest : RStr)
    (hc : isDigitC c = true) (v : RustFloat)
    (hp : parseNumberPart neg (c :: rest) = some v) :
    parseF64 (signStr neg ++ c :: rest) = some v := by
  obtain ⟨hinf, hinfy, hnan⟩ := map_lower_head_ne_special hc rest
  cases neg with
  | false =>
    show parseF64 ([] ++ c :: rest) = some v
    rw [List.nil_append]
    simp only [parseF64]
    rw [stripSign_digit_head hc]
    simp only [hinf, hinfy, hnan, decide_False, Bool.or_false,
      Bool.false_eq_true, if_false]
    exact hp
  | true =>
    show parseF64 ('-' :: (c :: rest)) = some v
    simp only [parseF64, stripSign, if_true, hinf, hinfy, hnan,
      decide_False, Bool.or_false, Bool.false_eq_true, if_false]
    exact hp

theorem parseF64_sign_nat (neg : Bool) (i : Nat) :
    parseF64 (signStr neg ++ natToDecimal i) =
      some (.finite (signQ neg * (i : ℚ))) := by
  have hd := natToDecimal_digits i
  have hne := natToDecimal_ne_nil i
  have hp := parseNumberPart_digits neg (natToDecimal i) hne hd
  rw [parseDigits_natToDecimal] at hp
  cases hI : natToDecimal i with
  | nil => exact absurd hI hne
  | cons c t =>
    rw [hI] at hp
    exact parseF64_signed neg c t
      (hd c (by rw [hI]; exact List.mem_cons_self _ _)) _ hp

theorem parseF64_sign_frac (neg : Bool) (i : Nat) (F : RStr)
    (hF : ∀ c ∈ F, isDigitC c = true) :
    parseF64 (signStr neg ++ natToDecimal i ++ '.' :: F) =
      some (.finite (signQ neg *
        ((parseDigits (natToDecimal i ++ F) : ℚ) / 10 ^ F.length))) := by
  have hd := natToDecimal_digits i
  have hne := natToDecimal_ne_nil i
  have hp := parseNumberPart_frac neg (natToDecimal i) F hne hd hF
  cases hI : natToDecimal i with
  | nil => exact absurd hI hne
  | cons c t =>
    rw [hI] at hp
    rw [List.append_assoc]
    simp only [List.cons_append] at hp ⊢
    exact parseF64_signed neg c (t ++ '.' :: F)
      (hd c (by rw [hI]; exact List.mem_cons_self _ _)) _ hp

/- ===== C3: the trimmed rendering of format_number ===== -/

theorem getLast?_append_of_ne_nil {A B : RStr} (hB : B ≠ []) :
    (A ++ B).getLast? = B.getLast? := by
  rw [List.getLast?_append]
  cases hB' : B.getLast? with
  | none => exact absurd (List.getLast?_eq_none_iff.mp hB') hB
  | some d => rfl

theorem padSix_trim_digits (f : Nat) :
    ∀ c ∈ trimTrailing '0' (padSix f), isDigitC c = true :=
  fun c hc => padSix_digits f c ((trimTrailing_zero_spec (padSix f)).2.2 c hc)

theorem signStr_getLast_digit (neg : Bool) (i : Nat) :
    ∀ c, (signStr neg ++ natToDecimal i).getLast? = some c →
      isDigitC c = true := by
  intro c hc
  rw [getLast?_append_of_ne_nil (natToDecimal_ne_nil i)] at hc
  exact natToDecimal_digits i c (List.mem_of_getLast?_eq_some hc)

theorem trim_render (neg : Bool) (i f : Nat) :
    trimTrailing '.' (trimTrailing '0'
        (signStr neg ++ natToDecimal i ++ '.' :: padSix f)) =
      signStr neg ++ natToDecimal i ++
        (if trimTrailing '0' (padSix f) = [] then []
          else '.' :: trimTrailing '0' (padSix f)) := by
  rw [trimTrailing_append_cons '0' (by decide)
    (signStr neg ++ natToDecimal i) (padSix f)]
  by_cases hF : trimTrailing '0' (padSix f) = []
  · rw [hF]
    rw [if_pos rfl, List.append_nil, trimTrailing_append_self]
    exact trimTrailing_eq_self_of_getLast '.' _
      (fun c hc => digit_ne (signStr_getLast_digit neg i c hc) (by decide))
  · rw [if_neg hF]
    apply trimTrailing_eq_self_of_getLast
    intro c hc
    rw [List.append_assoc] at hc
    rw [getLast?_append_of_ne_nil (by simp)] at hc
    rw [show ('.' :: trimTrailing '0' (padSix f)) =
      ['.'] ++ trimTrailing '0' (padSix f) from rfl] at hc
    rw [getLast?_append_of_ne_nil (by simp)] at hc
    rw [getLast?_append_of_ne_nil hF] at hc
    exact digit_ne (padSix_trim_digits f c (List.mem_of_getLast?_eq_some hc))
      (by decide)

/-- The string produced by the non-integer branch of `format_number`,
decomposed into sign, integer digits and trimmed fraction digits. -/
def renderTrim (neg : Bool) (i f : Nat) : RStr :=
  signStr neg ++ natToDecimal i ++
    (if trimTrailing '0' (padSix f) = [] then []
     else '.' :: trimTrailing '0' (padSix f))

theorem parse_renderTrim (neg : Bool) (i f : Nat) (hf : f < 10 ^ 6) :
    parseF64 (renderTrim neg i f) =
      some (.finite (signQ neg * (((i * 10 ^ 6 + f : ℕ) : ℚ) / 10 ^ 6))) := by
  unfold renderTrim
  obtain ⟨hval, hlen, hmem⟩ := trimTrailing_zero_spec (padSix f)
  rw [parseDigits_padSix] at hval
  rw [padSix_length f hf] at hval hlen
  by_cases hF : trimTrailing '0' (padSix f) = []
  · rw [if_pos hF, List.append_nil]
    have hf0 : f = 0 := by
      rw [hF] at hval
      simpa [parseDigits] using hval
    rw [parseF64_sign_nat neg i]
    have hq : signQ neg * (i : ℚ) =
        signQ neg * (((i * 10 ^ 6 + f : ℕ) : ℚ) / 10 ^ 6) := by
      rw [hf0]
      push_cast
      congr 1
      rw [eq_div_iff (by positivity)]
      ring
    rw [hq]
  · rw [if_neg hF]
    rw [parseF64_sign_frac neg i _ (padSix_trim_digits f)]
    set F' := trimTrailing '0' (padSix f) with hFdef
    set k := F'.length with hkdef
    have keyN : (i * 10 ^ k + parseDigits F') * 10 ^ 6 =
        (i * 10 ^ 6 + f) * 10 ^ k := by
      rw [hval]
      have h6 : (10:ℕ) ^ (6 - k) * 10 ^ k = 10 ^ 6 := by
        rw [← pow_add]
        congr 1
        omega
      calc (i * 10 ^ k + parseDigits F') * 10 ^ 6
          = i * (10 ^ 6 * 10 ^ k) + parseDigits F' * 10 ^ 6 := by ring
        _ = i * (10 ^ 6 * 10 ^ k) +
            parseDigits F' * (10 ^ (6 - k) * 10 ^ k) := by rw [h6]
        _ = (i * 10 ^ 6 + parseDigits F' * 10 ^ (6 - k)) * 10 ^ k := by ring
    have hq : (parseDigits (natToDecimal i ++ F') : ℚ) / 10 ^ k =
        ((i * 10 ^ 6 + f : ℕ) : ℚ) / 10 ^ 6 := by
      rw [parseDigits_append, parseDigits_natToDecimal]
      rw [div_eq_div_iff (by positivity) (by positivity)]
      exact_mod_cast keyN
    rw [hq]

/- ===== C3: the formatting direction ===== -/

theorem roundHalfEven_intCast (k : ℤ) : roundHalfEven ((k : ℚ)) = k := by
  unfold roundHalfEven
  rw [Int.floor_intCast]
  norm_num

theorem rhe_of_signed_nat (neg : Bool) (m : Nat) :
    roundHalfEven ((signQ neg * ((m : ℚ) / 10 ^ 6)) * 10 ^ 6) =
      (if neg = true then -(m : ℤ) else (m : ℤ)) := by
  have h : (signQ neg * ((m : ℚ) / 10 ^ 6)) * 10 ^ 6 =
      (((if neg = true then -(m : ℤ) else (m : ℤ)) : ℤ) : ℚ) := by
    cases neg <;> simp [signQ]
  rw [h, roundHalfEven_intCast]

theorem signed_nat_neg_iff (neg : Bool) (m : Nat) (hm : m ≠ 0) :
    (signQ neg * ((m : ℚ) / 10 ^ 6) < 0) ↔ (neg = true) := by
  have hmq : (0 : ℚ) < (m : ℚ) := by exact_mod_cast Nat.pos_of_ne_zero hm
  have hpos : (0 : ℚ) < (m : ℚ) / 10 ^ 6 := by positivity
  cases neg
  · simp only [signQ, Bool.false_eq_true, if_false, one_mul, iff_false]
    intro h
    linarith
  · rw [show signQ true = -1 from rfl]
    constructor
    · intro _
      rfl
    · intro _
      linarith

theorem format_number_int (q : ℚ) (hden : q.den = 1) (habs : |q| < 2 ^ 63) :
    format_number q = intToDecimal q.num := by
  unfold format_number
  rw [if_pos ⟨hden, habs⟩]

theorem format_number_else (q : ℚ) (hden : ¬(q.den = 1 ∧ |q| < 2 ^ 63))
    (neg : Bool) (m : Nat)
    (hm : roundHalfEven (q * 10 ^ 6) = (if neg = true then -(m : ℤ) else (m : ℤ)))
    (hneg : (q < 0) ↔ (neg = true)) :
    format_number q = renderTrim neg (m / 10 ^ 6) (m % 10 ^ 6) := by
  unfold format_number
  rw [if_neg hden]
  unfold renderTrim
  rw [← trim_render]
  have hfix : fixedSix q = signStr neg ++ natToDecimal (m / 10 ^ 6) ++
      '.' :: padSix (m % 10 ^ 6) := by
    simp only [fixedSix]
    rw [hm]
    unfold signStr
    cases neg
    · have hq : ¬(q < 0) := fun h => by simpa using hneg.mp h
      simp only [Bool.false_eq_true, if_false, Int.natAbs_ofNat, hq]
    · have hq : q < 0 := hneg.mpr rfl
      simp only [if_true, Int.natAbs_neg, Int.natAbs_ofNat, hq]
  rw [hfix]

theorem intToDecimal_eq (z : ℤ) :
    intToDecimal z = signStr (decide (z < 0)) ++ natToDecimal z.natAbs := by
  unfold intToDecimal signStr
  by_cases h : z < 0
  · simp [h]
  · simp [h]

theorem renderTrim_zero (neg : Bool) (i : Nat) :
    renderTrim neg i 0 = signStr neg ++ natToDecimal i := by
  unfold renderTrim
  rw [if_pos (by decide), List.append_nil]

theorem signed_nat_eq_intCast (neg : Bool) (i : Nat) :
    signQ neg * (((i * 10 ^ 6 : ℕ) : ℚ) / 10 ^ 6) =
      (((if neg = true then -(i : ℤ) else (i : ℤ)) : ℤ) : ℚ) := by
  cases neg <;>
    · simp [signQ]
      field_simp
      norm_num

theorem den_one_mod_zero (neg : Bool) (m : Nat)
    (hd : (signQ neg * ((m : ℚ) / 10 ^ 6)).den = 1) : m % 10 ^ 6 = 0 := by
  have hnum : ((signQ neg * ((m : ℚ) / 10 ^ 6)).num : ℚ) =
      signQ neg * ((m : ℚ) / 10 ^ 6) := Rat.coe_int_num_of_den_eq_one hd
  have h2 : ((signQ neg * ((m : ℚ) / 10 ^ 6)).num : ℚ) * 10 ^ 6 =
      signQ neg * (m : ℚ) := by
    rw [hnum]
    field_simp
  set n : ℤ := (signQ neg * ((m : ℚ) / 10 ^ 6)).num with hn
  have h3 : ((if neg = true then -n else n : ℤ) : ℚ) * 10 ^ 6 = (m : ℚ) := by
    cases neg
    · simpa [signQ] using h2
    · simp only [signQ, if_true] at h2 ⊢
      push_cast
      linarith
  have h4 : (if neg = true then -n else n : ℤ) * 10 ^ 6 = (m : ℤ) := by
    exact_mod_cast h3
  have h5 : ((10 : ℤ) ^ 6) ∣ (m : ℤ) :=
    ⟨(if neg = true then -n else n : ℤ), by rw [← h4]; ring⟩
  have h6 : (10 : ℕ) ^ 6 ∣ m := by exact_mod_cast h5
  obtain ⟨c, hc⟩ := h6
  subst hc
  exact Nat.mul_mod_right _ _


theorem format_renderedVal (neg : Bool) (m : Nat)
    (hm_ne : ¬(neg = true ∧ m = 0)) :
    format_number (signQ neg * ((m : ℚ) / 10 ^ 6)) =
      renderTrim neg (m / 10 ^ 6) (m % 10 ^ 6) := by
  by_cases hf : m % 10 ^ 6 = 0
  · obtain ⟨i, hi⟩ : ∃ i, m = i * 10 ^ 6 :=
      ⟨m / 10 ^ 6, (Nat.div_mul_cancel (Nat.dvd_of_mod_eq_zero hf)).symm⟩
    subst hi
    have hdiv : i * 10 ^ 6 / 10 ^ 6 = i := Nat.mul_div_cancel i (by norm_num)
    have hmod : i * 10 ^ 6 % 10 ^ 6 = 0 := Nat.mul_mod_left i _
    rw [hdiv, hmod, renderTrim_zero, signed_nat_eq_intCast]
    cases neg
    · simp only [Bool.false_eq_true, if_false]
      by_cases habs : |(((i : ℤ) : ℚ))| < 2 ^ 63
      · rw [format_number_int _ (Rat.den_intCast _) habs, Rat.num_intCast,
          intToDecimal_eq]
        rw [show decide ((i : ℤ) < 0) = false from decide_eq_false (by omega)]
        simp
      · have hden : ¬((((i : ℤ) : ℚ)).den = 1 ∧
            |(((i : ℤ) : ℚ))| < 2 ^ 63) := fun h => habs h.2
        rw [format_number_else _ hden false (i * 10 ^ 6) ?_ ?_, hdiv, hmod,
          renderTrim_zero]
        · have harg : (((i : ℤ) : ℚ)) * 10 ^ 6 =
              ((((i * 10 ^ 6 : ℕ) : ℤ)) : ℚ) := by
            push_cast
            ring
          rw [harg, roundHalfEven_intCast]
          simp
        · simp only [Bool.false_eq_true, iff_false, not_lt]
          positivity
    · simp only [if_true]
      have hi0 : i ≠ 0 := fun h0 => hm_ne ⟨rfl, by simp [h0]⟩
      have hzlt : (-(i : ℤ) : ℤ) < 0 := by
        have : 0 < i := Nat.pos_of_ne_zero hi0
        omega
      by_cases habs : |(((-(i : ℤ) : ℤ)) : ℚ)| < 2 ^ 63
      · rw [format_number_int _ (Rat.den_intCast _) habs, Rat.num_intCast,
          intToDecimal_eq]
        rw [show decide ((-(i : ℤ) : ℤ) < 0) = true from decide_eq_true hzlt]
        simp
      · have hden : ¬((((-(i : ℤ) : ℤ)) : ℚ).den = 1 ∧
            |(((-(i : ℤ) : ℤ)) : ℚ)| < 2 ^ 63) := fun h => habs h.2
        rw [format_number_else _ hden true (i * 10 ^ 6) ?_ ?_, hdiv, hmod,
          renderTrim_zero]
        · have harg : ((((-(i : ℤ) : ℤ))) : ℚ) * 10 ^ 6 =
              (((-(((i * 10 ^ 6 : ℕ) : ℤ)) : ℤ)) : ℚ) := by
            push_cast
            ring
          rw [harg, roundHalfEven_intCast]
          simp
        · have hq : ((((-(i : ℤ) : ℤ))) : ℚ) < 0 := by
            have hpos : (0 : ℚ) < (i : ℚ) := by
              exact_mod_cast Nat.pos_of_ne_zero hi0
            push_cast
            linarith
          exact ⟨fun _ => rfl, fun _ => hq⟩
  · have hm0 : m ≠ 0 := fun h => hf (by simp [h])
    have hden : ¬((signQ neg * ((m : ℚ) / 10 ^ 6)).den = 1 ∧
        |signQ neg * ((m : ℚ) / 10 ^ 6)| < 2 ^ 63) := by
      rintro ⟨hd1, _⟩
      exact hf (den_one_mod_zero neg m hd1)
    exact format_number_else _ hden neg m (rhe_of_signed_nat neg m)
      (signed_nat_neg_iff neg m hm0)

theorem roundHalfEven_nonneg {x : ℚ} (hx : 0 ≤ x) : 0 ≤ roundHalfEven x := by
  have hf : (0 : ℤ) ≤ ⌊x⌋ := Int.floor_nonneg.mpr hx
  simp only [roundHalfEven]
  split_ifs <;> omega

theorem roundHalfEven_nonpos {x : ℚ} (hx : x < 0) : roundHalfEven x ≤ 0 := by
  have hf : ⌊x⌋ ≤ -1 := by
    have h0 : ¬(0 : ℤ) ≤ ⌊x⌋ := fun h =>
      absurd (Int.floor_nonneg.mp h) (not_le.mpr hx)
    omega
  simp only [roundHalfEven]
  split_ifs <;> omega

theorem rhe_neg_tenth : roundHalfEven ((-1 / 10000000 : ℚ) * 10 ^ 6) = 0 := by
  have hx : (-1 / 10000000 : ℚ) * 10 ^ 6 = -1 / 10 := by norm_num
  have hfloor : ⌊(-1 / 10 : ℚ)⌋ = -1 := by
    rw [Int.floor_eq_iff]
    constructor <;> norm_num
  rw [hx]
  simp only [roundHalfEven]
  rw [hfloor]
  rw [if_neg (by push_cast; norm_num), if_pos (by push_cast; norm_num)]
  norm_num

theorem den_neg_tenthM :
    ¬((-1 / 10000000 : ℚ).den = 1 ∧ |(-1 / 10000000 : ℚ)| < 2 ^ 63) := by
  rintro ⟨hd, _⟩
  have hqq : (((-1 / 10000000 : ℚ).num : ℤ) : ℚ) = -1 / 10000000 :=
    Rat.coe_int_num_of_den_eq_one hd
  have h1 : (((-1 / 10000000 : ℚ).num : ℤ) : ℚ) < 0 := by rw [hqq]; norm_num
  have h2 : (-1 : ℚ) < (((-1 / 10000000 : ℚ).num : ℤ) : ℚ) := by rw [hqq]; norm_num
  have hz1 : (-1 / 10000000 : ℚ).num < 0 := by exact_mod_cast h1
  have hz2 : (-1 : ℤ) < (-1 / 10000000 : ℚ).num := by exact_mod_cast h2
  omega

/-- C3 counterexample: `format_number (-1e-7)` rounds the six-decimal rendering
to `"-0"`; reparsing `"-0"` gives the value zero, which reformats to `"0"`, so
`format_number` is not idempotent under re-parsing even though the integer part
of the input (zero) fits the signed 64-bit range. -/
theorem c3_counterexample :
    format_number (-1 / 10000000 : ℚ) = "-0".data ∧
    parseF64 "-0".data = some (RustFloat.finite 0) ∧
    format_number (0 : ℚ) = "0".data ∧
    "0".data ≠ "-0".data := by
  refine ⟨?_, ?_, by decide, by decide⟩
  · have hm : roundHalfEven ((-1 / 10000000 : ℚ) * 10 ^ 6) =
        (if (true : Bool) = true then -((0 : ℕ) : ℤ) else ((0 : ℕ) : ℤ)) := by
      rw [rhe_neg_tenth]
      simp
    have hneg : ((-1 / 10000000 : ℚ) < 0) ↔ ((true : Bool) = true) :=
      ⟨fun _ => rfl, fun _ => by norm_num⟩
    rw [format_number_else _ den_neg_tenthM true 0 hm hneg]
    decide
  · have h := parseF64_sign_nat true 0
    rw [show ("-0".data : RStr) = signStr true ++ natToDecimal 0 from rfl, h]
    simp [signQ]

/-- C3 (amended): `format_number` is idempotent under re-parsing for every
finite input whose truncated integer part fits the signed 64-bit range,
*except* when the formatted string is `"-0"` (a negative input whose
six-decimal rounding is zero): for all other inputs the formatted string
reparses as a finite value whose reformatting is the same string. -/
theorem c3_amended_format_number_idempotent (q : ℚ)
    (hrange : -(2 ^ 63) ≤ qtrunc q ∧ qtrunc q < 2 ^ 63)
    (hnz : format_number q ≠ "-0".data) :
    ∃ r : ℚ, parseF64 (format_number q) = some (RustFloat.finite r) ∧
      format_number r = format_number q := by
  clear hrange
  by_cases hint : q.den = 1 ∧ |q| < 2 ^ 63
  · obtain ⟨hden, habs⟩ := hint
    have hqq : ((q.num : ℤ) : ℚ) = q := Rat.coe_int_num_of_den_eq_one hden
    refine ⟨q, ?_, rfl⟩
    rw [format_number_int q hden habs, intToDecimal_eq, parseF64_sign_nat]
    have hq : signQ (decide (q.num < 0)) * ((q.num.natAbs : ℕ) : ℚ) = q := by
      by_cases h : q.num < 0
      · rw [show decide (q.num < 0) = true from decide_eq_true h]
        have hna : ((q.num.natAbs : ℕ) : ℚ) = -q := by
          have h1 : ((q.num.natAbs : ℕ) : ℤ) = -q.num := by omega
          have h2 : (((q.num.natAbs : ℕ) : ℤ) : ℚ) = ((-q.num : ℤ) : ℚ) := by
            rw [h1]
          rw [Int.cast_natCast, Int.cast_neg, hqq] at h2
          exact h2
        rw [hna, show signQ true = -1 from rfl]
        ring
      · rw [show decide (q.num < 0) = false from decide_eq_false h]
        have hna : ((q.num.natAbs : ℕ) : ℚ) = q := by
          have h1 : ((q.num.natAbs : ℕ) : ℤ) = q.num :=
            Int.natAbs_of_nonneg (not_lt.mp h)
          calc ((q.num.natAbs : ℕ) : ℚ)
              = (((q.num.natAbs : ℕ) : ℤ) : ℚ) := by rw [Int.cast_natCast]
            _ = ((q.num : ℤ) : ℚ) := by rw [h1]
            _ = q := hqq
        rw [hna, show signQ false = 1 from rfl, one_mul]
    rw [hq]
  · have hneg2 : (q < 0) ↔ (decide (q < 0) = true) := by simp
    have hm : roundHalfEven (q * 10 ^ 6) =
        (if decide (q < 0) = true
         then -(((roundHalfEven (q * 10 ^ 6)).natAbs : ℕ) : ℤ)
         else (((roundHalfEven (q * 10 ^ 6)).natAbs : ℕ) : ℤ)) := by
      by_cases hq0 : q < 0
      · have hR0 : roundHalfEven (q * 10 ^ 6) ≤ 0 :=
          roundHalfEven_nonpos (mul_neg_of_neg_of_pos hq0 (by norm_num))
        rw [show decide (q < 0) = true from decide_eq_true hq0]
        simp only [if_true]
        omega
      · have hR0 : 0 ≤ roundHalfEven (q * 10 ^ 6) :=
          roundHalfEven_nonneg (mul_nonneg (not_lt.mp hq0) (by norm_num))
        rw [show decide (q < 0) = false from decide_eq_false hq0]
        simp only [Bool.false_eq_true, if_false]
        omega
    have hfmt := format_number_else q hint (decide (q < 0))
      (roundHalfEven (q * 10 ^ 6)).natAbs hm hneg2
    have hm_ne : ¬(decide (q < 0) = true ∧
        (roundHalfEven (q * 10 ^ 6)).natAbs = 0) := by
      rintro ⟨hng, hz⟩
      apply hnz
      rw [hfmt, hng, hz]
      decide
    have hparse := parse_renderTrim (decide (q < 0))
      ((roundHalfEven (q * 10 ^ 6)).natAbs / 10 ^ 6)
      ((roundHalfEven (q * 10 ^ 6)).natAbs % 10 ^ 6)
      (Nat.mod_lt _ (by norm_num))
    rw [Nat.div_add_mod'] at hparse
    refine ⟨signQ (decide (q < 0)) *
      ((((roundHalfEven (q * 10 ^ 6)).natAbs : ℕ) : ℚ) / 10 ^ 6), ?_, ?_⟩
    · rw [hfmt]
      exact hparse
    · rw [format_renderedVal _ _ hm_ne, ← hfmt]

/-- Witness for the amended C3 theorem at the concrete input 3: the hypotheses
hold and `"3"` reparses and reformats to itself. -/
theorem c3_amended_format_number_idempotent_witness :
    ((-(2 ^ 63) ≤ qtrunc 3 ∧ qtrunc 3 < 2 ^ 63) ∧
      format_number (3 : ℚ) ≠ "-0".data) ∧
    ∃ r : ℚ, parseF64 (format_number (3 : ℚ)) = some (RustFloat.finite r) ∧
      format_number r = format_number (3 : ℚ) :=
  ⟨⟨by decide, by decide⟩,
    c3_amended_format_number_idempotent 3 (by decide) (by decide)⟩
